import Mathlib

set_option maxRecDepth 8000

/-!
Verification development for the PDF question-answering application
(`app.py`).  The Python functions are embedded shallowly: byte-level PDF
parsing, OCR and the hosted model are represented by their observable
outcomes (per-page extraction results, per-image OCR results, an answer
oracle), while the orchestration code — `extract_text_from_pdf_bytes`,
`ocr_text_from_pdf_bytes`, `get_all_text`, `split_text` (including the
`CharacterTextSplitter` merge loop it delegates to, with
`separator="\n"`, `chunk_size=1000`, `chunk_overlap=200`,
`length_function=len`), `build_conversation_chain`, `ask_question` and
`main` — is translated function by function.
-/

namespace LLMChat

/-! ## Python string primitives

`str.strip()` and `str.split("\n")` are modelled over the character
list of a `String`. -/

/-- Whitespace class of Python `str.strip()` (ASCII part). -/
def isPyWs (c : Char) : Bool :=
  c == ' ' || c == '\t' || c == '\n' || c == '\r' || c == '\x0b' || c == '\x0c'

/-- Strip leading and trailing whitespace from a character list. -/
def stripList (l : List Char) : List Char :=
  ((l.dropWhile isPyWs).reverse.dropWhile isPyWs).reverse

/-- Python `s.strip()`. -/
def pyStrip (s : String) : String := ⟨stripList s.data⟩

/-- Split a character list at every newline, keeping empty segments,
as Python `s.split("\n")` does. -/
def splitLinesList : List Char → List (List Char)
  | [] => [[]]
  | c :: rest =>
    match splitLinesList rest with
    | [] => [[]]
    | h :: t => if c = '\n' then [] :: h :: t else (c :: h) :: t

/-- Python `s.split("\n")`. -/
def pySplitLines (s : String) : List String :=
  (splitLinesList s.data).map (fun l => (⟨l⟩ : String))

/-- Join character lists with a newline between consecutive segments. -/
def joinNlList : List (List Char) → List Char
  | [] => []
  | [u] => u
  | u :: v :: rest => u ++ '\n' :: joinNlList (v :: rest)

/-- Python `"\n".join(docs)`. -/
def joinNl : List String → String
  | [] => ""
  | [u] => u
  | u :: v :: rest => u ++ "\n" ++ joinNl (v :: rest)

/-- Concatenation of a list of strings. -/
def concatAll : List String → String
  | [] => ""
  | s :: rest => s ++ concatAll rest

/-- `s.data.drop n`, as a string. -/
def strDrop (s : String) (n : Nat) : String := ⟨s.data.drop n⟩

/-! ## Document model

A PDF byte buffer is represented by what the two extraction libraries
observe on it: the text layer (`PyPDF2`) and the page images
(`pdf2image` + `pytesseract`). -/

/-- One page as seen by `page.extract_text()`: `ok t` models a normal
return (`none` standing for Python `None`), `err` models the call
raising. -/
inductive PageRead where
  | ok (t : Option String)
  | err
deriving DecidableEq

/-- The text layer of one PDF: the `PdfReader` constructor raises
(`malformed`) or exposes a list of pages. -/
inductive TextLayer where
  | malformed
  | pages (ps : List PageRead)
deriving DecidableEq

/-- One page image as seen by `pytesseract.image_to_string`. -/
inductive ImageRead where
  | ok (t : String)
  | err
deriving DecidableEq

/-- The render side of one PDF: `convert_from_bytes` raises
(`renderFail`) or yields a list of page images. -/
inductive OcrLayer where
  | renderFail
  | images (l : List ImageRead)
deriving DecidableEq

/-- One uploaded document: its name and the two views of its bytes. -/
structure Document where
  name : String
  textLayer : TextLayer
  ocr : OcrLayer
deriving DecidableEq

/-! ## `extract_text_from_pdf_bytes` and `ocr_text_from_pdf_bytes`

Each is a `try` body that may raise (`Except.error`) wrapped in a
catch-all that turns any exception into `""`. -/

/-- Body of the page loop: `for page in reader.pages: text += page.extract_text() or ""`.
A raising page aborts the whole loop. -/
def extract_pages_body : List PageRead → Except Unit String
  | [] => Except.ok ""
  | PageRead.ok t :: rest =>
    match extract_pages_body rest with
    | Except.ok s => Except.ok (t.getD "" ++ s)
    | Except.error e => Except.error e
  | PageRead.err :: _ => Except.error ()

/-- Body of the `try` block of `extract_text_from_pdf_bytes`. -/
def extract_body : TextLayer → Except Unit String
  | TextLayer.malformed => Except.error ()
  | TextLayer.pages ps => extract_pages_body ps

/-- `extract_text_from_pdf_bytes`: the `except Exception: return ""`
handler maps any raised error to the empty string. -/
def extract_text_from_pdf_bytes (d : TextLayer) : String :=
  match extract_body d with
  | Except.ok t => t
  | Except.error _ => ""

/-- Body of the image loop: `for img in images: text += pytesseract.image_to_string(img)`. -/
def ocr_images_body : List ImageRead → Except Unit String
  | [] => Except.ok ""
  | ImageRead.ok t :: rest =>
    match ocr_images_body rest with
    | Except.ok s => Except.ok (t ++ s)
    | Except.error e => Except.error e
  | ImageRead.err :: _ => Except.error ()

/-- Body of the `try` block of `ocr_text_from_pdf_bytes`. -/
def ocr_body : OcrLayer → Except Unit String
  | OcrLayer.renderFail => Except.error ()
  | OcrLayer.images l => ocr_images_body l

/-- `ocr_text_from_pdf_bytes`: any raised error becomes the empty string. -/
def ocr_text_from_pdf_bytes (d : OcrLayer) : String :=
  match ocr_body d with
  | Except.ok t => t
  | Except.error _ => ""

/-- Whether an embedded `try` body raised. -/
def raised (r : Except Unit String) : Bool :=
  match r with
  | Except.ok _ => false
  | Except.error _ => true

/-- Concatenated text of the readable pages (`None` pages contribute `""`). -/
def pagesText : List PageRead → String
  | [] => ""
  | PageRead.ok t :: rest => t.getD "" ++ pagesText rest
  | PageRead.err :: rest => pagesText rest

/-! ## `get_all_text` -/

/-- The condition under which `get_all_text` enters the OCR fallback
branch for a document: `if not t.strip()`. -/
def ocrInvoked (d : Document) : Bool :=
  pyStrip (extract_text_from_pdf_bytes d.textLayer) == ""

/-- Loop of `get_all_text`, accumulating `combined` and `used_ocr`.
The Streamlit progress indicators of the loop have no effect on the
returned values and are omitted. -/
def get_all_text_aux : List Document → String → Bool → String × Bool
  | [], combined, used => (combined, used)
  | d :: rest, combined, used =>
    if pyStrip (extract_text_from_pdf_bytes d.textLayer) = "" then
      if pyStrip (ocr_text_from_pdf_bytes d.ocr) = "" then
        get_all_text_aux rest combined used
      else
        get_all_text_aux rest (combined ++ ocr_text_from_pdf_bytes d.ocr ++ "\n") true
    else
      get_all_text_aux rest (combined ++ extract_text_from_pdf_bytes d.textLayer ++ "\n") used

/-- `get_all_text`: returns `combined.strip(), used_ocr`. -/
def get_all_text (files : List Document) : String × Bool :=
  let r := get_all_text_aux files "" false
  (pyStrip r.1, r.2)

/-! ## `split_text` and the `CharacterTextSplitter` merge loop

`split_text` builds `CharacterTextSplitter(separator="\n",
chunk_size=1000, chunk_overlap=200, length_function=len)` and calls
`split_text`, which splits on the separator, discards empty splits and
merges them back with `TextSplitter._merge_splits`. -/

/-- Joined length of a run of splits: sum of their lengths plus one
separator between consecutive splits.  This is the value the Python
loop maintains incrementally in `total`. -/
def totalLen (us : List String) : Nat :=
  (us.map String.length).sum + us.length - 1

/-- The `while` loop of `_merge_splits` popping splits from the front
of `current_doc` (`dlen` is the length of the incoming split). -/
def popUnits (dlen : Nat) : List String → List String
  | [] => []
  | u :: rest =>
    if 200 < totalLen (u :: rest) ∨
        (1000 < totalLen (u :: rest) + dlen + 1 ∧ 0 < totalLen (u :: rest)) then
      popUnits dlen rest
    else
      u :: rest

/-- `TextSplitter._merge_splits` with `separator="\n"`: `docs` holds the
finished chunks, `current` the pending run of splits. -/
def merge_splits_aux : List String → List String → List String → List String
  | [], current, docs =>
    if pyStrip (joinNl current) = "" then docs
    else docs ++ [pyStrip (joinNl current)]
  | d :: ds, current, docs =>
    if 1000 < totalLen current + d.length + (if current = [] then 0 else 1) then
      merge_splits_aux ds (popUnits d.length current ++ [d])
        (if current = [] then docs
         else if pyStrip (joinNl current) = "" then docs
         else docs ++ [pyStrip (joinNl current)])
    else
      merge_splits_aux ds (current ++ [d]) docs

/-- `split_text`. -/
def split_text (text : String) : List String :=
  merge_splits_aux ((pySplitLines text).filter (fun u => u ≠ "")) [] []

/-- One chunk of the merge loop, instrumented: the run of splits it was
joined from, and how many leading splits of that run were carried over
from the previous chunk by the overlap logic. -/
structure TraceEntry where
  units : List String
  kept : Nat
deriving DecidableEq

/-- Chunk text of a trace entry (`_join_docs`: join then strip). -/
def chunkOf (e : TraceEntry) : String := pyStrip (joinNl e.units)

/-- Overlap text a trace entry inherited from its predecessor. -/
def overlapOf (e : TraceEntry) : String := joinNl (e.units.take e.kept)

/-- Instrumented merge loop: identical branching to `merge_splits_aux`,
but chunks are recorded as `TraceEntry` values; `kpend` is the number of
splits at the front of `current` that were carried over by the overlap
logic. -/
def mergeTraceAux : List String → List String → Nat → List TraceEntry → List TraceEntry
  | [], current, kpend, docs =>
    if pyStrip (joinNl current) = "" then docs
    else docs ++ [⟨current, kpend⟩]
  | d :: ds, current, kpend, docs =>
    if 1000 < totalLen current + d.length + (if current = [] then 0 else 1) then
      mergeTraceAux ds (popUnits d.length current ++ [d]) (popUnits d.length current).length
        (if current = [] then docs
         else if pyStrip (joinNl current) = "" then docs
         else docs ++ [⟨current, kpend⟩])
    else
      mergeTraceAux ds (current ++ [d]) kpend docs

/-- Instrumented counterpart of `split_text`. -/
def split_text_trace (text : String) : List TraceEntry :=
  mergeTraceAux ((pySplitLines text).filter (fun u => u ≠ "")) [] 0 []

/-- The handover invariant between consecutive chunks: the splits the
later chunk starts with are a suffix of the earlier chunk's splits, and
their joined length is at most the configured overlap of 200. -/
def handover (e1 e2 : TraceEntry) : Prop :=
  (∃ xs, xs ++ e2.units.take e2.kept = e1.units) ∧
    totalLen (e2.units.take e2.kept) ≤ 200

/-- The splits of a trace with each chunk's inherited overlap removed. -/
def droppedUnits : List TraceEntry → List String
  | [] => []
  | e :: rest => e.units.drop e.kept ++ droppedUnits rest

/-- Chunk text with the inherited overlap region removed from the front. -/
def dropOverlap (e : TraceEntry) : String := strDrop (chunkOf e) (overlapOf e).length

/-- Concatenation of all chunks with every inherited overlap region
removed — the reconstruction the round-trip property speaks about. -/
def reconstructString (tr : List TraceEntry) : String :=
  match tr with
  | [] => ""
  | e :: rest => chunkOf e ++ concatAll (rest.map dropOverlap)

/-- A nonempty character list that neither starts nor ends in
whitespace (so that `strip` leaves it unchanged). -/
def edgeOKL : List Char → Bool
  | [] => false
  | c :: rest => !isPyWs c && !isPyWs (rest.getLastD c)

/-- A string that is nonempty and neither starts nor ends in whitespace
(so that `strip` leaves it unchanged). -/
def edgeOK (u : String) : Bool := edgeOKL u.data

/-! ## Conversation model

`build_conversation_chain` wires a `ConversationalRetrievalChain` around
a `ConversationBufferMemory`; per the per-question protocol, each call
retrieves context, asks the model and appends the (question, answer)
pair to the memory (the buffer stores the pair as a human message
followed by an AI message; the pair is the unit of the model here).
The hosted model is an oracle from the history and question to an
answer. -/

/-- The conversational session state: its append-only history of
(question, answer) pairs. -/
structure Chain where
  history : List (String × String)
deriving DecidableEq

/-- A freshly built chain has empty memory. -/
def build_conversation_chain : Chain := ⟨[]⟩

/-- One chain invocation: ask the model, append the pair, and return the
new chain together with the `chat_history` value of the response. -/
def chain_call (llm : List (String × String) → String → String)
    (c : Chain) (q : String) : Chain × List (String × String) :=
  let ans := llm c.history q
  let c1 : Chain := ⟨c.history ++ [(q, ans)]⟩
  (c1, c1.history)

/-! ## UI events and `ask_question` / `main` -/

/-- Observable effects of the orchestration code. -/
inductive Ev where
  | errorMsg (s : String)
  | infoMsg
  | warnMsg (s : String)
  | readDocs
  | splitCalled
  | networkEmbed
  | modelCall
  | renderUser (s : String)
  | renderBot (s : String)
  | successMsg (s : String)
deriving DecidableEq

def askWarnMsg : String := "Proses dulu PDF kamu sebelum bertanya."
def noTextErrMsg : String :=
  "❌ Tidak ada teks yang bisa diekstrak dari PDF (bahkan dengan OCR)."
def noChunksErrMsg : String :=
  "❌ Tidak ada potongan teks yang valid setelah proses splitting."
def uploadFirstMsg : String := "Silakan upload minimal 1 PDF dulu."
def apiKeyErrMsg : String :=
  "🔑 Google API key not found! Please set GOOGLE_API_KEY in your environment variables or Streamlit secrets."
def vectorErrMsg : String := "Error creating vector store"
def chainErrMsg : String := "Error creating conversation chain"
def processedMsg : String := "✅ PDF berhasil diproses!"
def processedOcrMsg : String := "✅ PDF berhasil diproses! (menggunakan OCR)"

/-- Streamlit session state used by `ask_question`. -/
structure AppState where
  conversation : Option Chain
  chat_history : List (String × String)
deriving DecidableEq

/-- `ask_question`: guard on an established conversation, then invoke
the chain, store its `chat_history` and render the last answer.
Progress-bar updates are omitted; the `except` branch of the happy path
is not reachable in this model because the oracle is total. -/
def ask_question (llm : List (String × String) → String → String)
    (s : AppState) (q : String) : AppState × List Ev :=
  match s.conversation with
  | none => (s, [Ev.warnMsg askWarnMsg])
  | some c =>
    ({ conversation := some (chain_call llm c q).1,
       chat_history := (chain_call llm c q).2 },
      [Ev.renderUser q, Ev.modelCall] ++
        (match (chain_call llm c q).2.getLast? with
         | some p => [Ev.renderBot p.2]
         | none => []))

/-- Asking a sequence of questions in order. -/
def askMany (llm : List (String × String) → String → String)
    (s : AppState) (qs : List String) : AppState :=
  qs.foldl (fun st q => (ask_question llm st q).1) s

/-- Credential lookup: `os.environ.get(..)` / `st.secrets.get(..)`
return `none` when unset. -/
structure KeyEnv where
  envKey : Option String
  secretsKey : Option String
deriving DecidableEq

/-- Python falsiness of an optional string: `None` or `""`. -/
def isFalsy : Option String → Bool
  | none => true
  | some s => s == ""

/-- Python `a or b` on optional strings. -/
def pyOr (a b : Option String) : Option String :=
  if isFalsy a then b else a

/-- The `Process` branch of `main` after the PDFs are read: extract,
check the corpus, split, then build the vector store and the chain.
External service failures are the `embedOk` / `chainOk` outcomes; the
redundant API-key re-check inside `build_vectorstore` is subsumed by
the startup check in `main`.  Returns the emitted events and whether a
conversation was established. -/
def process_action (files : List Document) (embedOk chainOk : Bool) :
    List Ev × Bool :=
  if pyStrip (get_all_text files).1 = "" then
    ([Ev.errorMsg noTextErrMsg], false)
  else if split_text (get_all_text files).1 = [] then
    ([Ev.splitCalled, Ev.errorMsg noChunksErrMsg], false)
  else if embedOk = false then
    ([Ev.splitCalled, Ev.networkEmbed, Ev.errorMsg vectorErrMsg], false)
  else if chainOk = false then
    ([Ev.splitCalled, Ev.networkEmbed, Ev.errorMsg chainErrMsg], false)
  else
    ([Ev.splitCalled, Ev.networkEmbed,
      Ev.successMsg (if (get_all_text files).2 then processedOcrMsg else processedMsg)], true)

/-- `main` up to the `Process` action: the startup credential check
halts the app with the error and remediation notice before anything is
read or sent; otherwise the `Process` click reads the uploads and runs
the pipeline.  Static page furniture is omitted. -/
def main_run (env : KeyEnv) (clickedProcess : Bool) (uploaded : List Document)
    (embedOk chainOk : Bool) : List Ev :=
  if isFalsy (pyOr env.envKey env.secretsKey) then
    [Ev.errorMsg apiKeyErrMsg, Ev.infoMsg]
  else if clickedProcess then
    if uploaded = [] then [Ev.errorMsg uploadFirstMsg]
    else Ev.readDocs :: (process_action uploaded embedOk chainOk).1
  else []

/-! ## String basics -/

theorem strData_append (a b : String) : (a ++ b).data = a.data ++ b.data := by
  cases a; cases b; rfl

theorem strExt {a b : String} (h : a.data = b.data) : a = b :=
  congrArg String.mk h

theorem strLength (s : String) : s.length = s.data.length := rfl

theorem strNe_empty_iff {s : String} : s ≠ "" ↔ s.data ≠ [] := by
  constructor
  · intro h hd
    exact h (strExt (by simpa using hd))
  · intro h he
    apply h
    rw [he]

theorem strAppend_empty (a : String) : a ++ "" = a :=
  strExt (by simp [strData_append])

theorem strEmpty_append (a : String) : "" ++ a = a :=
  strExt (by simp [strData_append])

/-! ## `pyStrip` lemmas -/

theorem length_dropWhile_le (p : Char → Bool) (l : List Char) :
    (l.dropWhile p).length ≤ l.length := by
  induction l with
  | nil => simp
  | cons c rest ih =>
    rw [List.dropWhile_cons]
    split
    · exact le_trans ih (by simp)
    · simp

theorem length_pyStrip_le (s : String) : (pyStrip s).length ≤ s.length := by
  show (stripList s.data).length ≤ s.data.length
  unfold stripList
  calc ((s.data.dropWhile isPyWs).reverse.dropWhile isPyWs).reverse.length
      = ((s.data.dropWhile isPyWs).reverse.dropWhile isPyWs).length := by simp
    _ ≤ (s.data.dropWhile isPyWs).reverse.length := length_dropWhile_le _ _
    _ = (s.data.dropWhile isPyWs).length := by simp
    _ ≤ s.data.length := length_dropWhile_le _ _

theorem stripList_eq_nil_iff {l : List Char} :
    stripList l = [] ↔ ∀ c ∈ l, isPyWs c = true := by
  unfold stripList
  constructor
  · intro h c hc
    have h1 : (l.dropWhile isPyWs).reverse.dropWhile isPyWs = [] := by
      have := congrArg List.reverse h
      simpa using this
    have h2 : ∀ x ∈ (l.dropWhile isPyWs).reverse, isPyWs x = true :=
      List.dropWhile_eq_nil_iff.mp h1
    have h3 : ∀ x ∈ l.dropWhile isPyWs, isPyWs x = true := by
      intro x hx
      exact h2 x (by simpa using hx)
    have hsplit : c ∈ l.takeWhile isPyWs ++ l.dropWhile isPyWs := by
      rw [List.takeWhile_append_dropWhile]
      exact hc
    rcases List.mem_append.mp hsplit with h4 | h4
    · exact List.mem_takeWhile_imp h4
    · exact h3 c h4
  · intro h
    have h1 : l.dropWhile isPyWs = [] := List.dropWhile_eq_nil_iff.mpr h
    simp [h1]

theorem pyStrip_eq_empty_iff {s : String} :
    pyStrip s = "" ↔ ∀ c ∈ s.data, isPyWs c = true := by
  constructor
  · intro h
    apply stripList_eq_nil_iff.mp
    have := congrArg String.data h
    simpa [pyStrip] using this
  · intro h
    exact strExt (by simpa [pyStrip] using stripList_eq_nil_iff.mpr h)

theorem dropWhile_cons_of_neg {p : Char → Bool} {c : Char} {l : List Char}
    (h : p c = false) : (c :: l).dropWhile p = c :: l := by
  rw [List.dropWhile_cons]
  simp [h]

theorem getLastD_irrel {b : List Char} (hb : b ≠ []) (x y : Char) :
    b.getLastD x = b.getLastD y := by
  rw [List.getLastD_eq_getLast?, List.getLastD_eq_getLast?]
  rcases h : b.getLast? with _ | v
  · exact absurd (List.getLast?_eq_none_iff.mp h) hb
  · simp

theorem getLastD_append_of_ne_nil :
    ∀ (a : List Char) {b : List Char}, b ≠ [] → ∀ x : Char,
      (a ++ b).getLastD x = b.getLastD x
  | [], _, _, _ => rfl
  | c :: arest, b, hb, x => by
    show ((c :: arest) ++ b).getLastD x = b.getLastD x
    rw [List.cons_append, List.getLastD_cons,
      getLastD_append_of_ne_nil arest hb c]
    exact getLastD_irrel hb c x

theorem stripList_eq_self {c : Char} {rest : List Char}
    (h1 : isPyWs c = false) (h2 : isPyWs (rest.getLastD c) = false) :
    stripList (c :: rest) = c :: rest := by
  unfold stripList
  rw [dropWhile_cons_of_neg h1]
  rcases hr : rest.reverse with _ | ⟨d, t⟩
  · have hnil : rest = [] := by simpa using congrArg List.reverse hr
    subst hnil
    simp [dropWhile_cons_of_neg h1]
  · have hrest : rest = t.reverse ++ [d] := by
      have := congrArg List.reverse hr
      simpa using this
    have hd : rest.getLastD c = d := by
      rw [hrest]
      exact List.getLastD_concat _ _ _
    have hrev : (c :: rest).reverse = d :: (t ++ [c]) := by
      rw [hrest]
      simp
    rw [hrev, dropWhile_cons_of_neg (by rw [← hd]; exact h2)]
    rw [← hrev]
    simp

theorem pyStrip_eq_self_of_edgeOK {u : String} (h : edgeOK u = true) :
    pyStrip u = u := by
  apply strExt
  show stripList u.data = u.data
  rcases hd : u.data with _ | ⟨c, rest⟩
  · rfl
  · have h1 : (!isPyWs c && !isPyWs (rest.getLastD c)) = true := by
      have h0 := h
      unfold edgeOK at h0
      rw [hd] at h0
      simpa [edgeOKL] using h0
    simp only [Bool.and_eq_true, Bool.not_eq_true'] at h1
    exact stripList_eq_self h1.1 h1.2

theorem pyStrip_ne_empty_of_edgeOK {u : String} (h : edgeOK u = true) :
    pyStrip u ≠ "" := by
  rw [pyStrip_eq_self_of_edgeOK h]
  intro he
  subst he
  simp [edgeOK, edgeOKL] at h

theorem edgeOKL_append (a mid b : List Char) (ha : edgeOKL a = true)
    (hb : edgeOKL b = true) : edgeOKL (a ++ mid ++ b) = true := by
  rcases a with _ | ⟨c, arest⟩
  · simp [edgeOKL] at ha
  · rcases b with _ | ⟨d, brest⟩
    · simp [edgeOKL] at hb
    · simp only [edgeOKL, Bool.and_eq_true, Bool.not_eq_true'] at ha hb
      show edgeOKL (c :: (arest ++ mid ++ d :: brest)) = true
      simp only [edgeOKL, Bool.and_eq_true, Bool.not_eq_true']
      refine ⟨ha.1, ?_⟩
      rw [show arest ++ mid ++ d :: brest = (arest ++ mid) ++ d :: brest by simp,
        getLastD_append_of_ne_nil (arest ++ mid) (by simp) c,
        getLastD_irrel (List.cons_ne_nil d brest) c d, List.getLastD_cons]
      exact hb.2

/-! ## `splitLinesList` / `joinNl` lemmas -/

theorem splitLinesList_ne_nil (l : List Char) : splitLinesList l ≠ [] := by
  cases l with
  | nil => simp [splitLinesList]
  | cons c rest =>
    simp only [splitLinesList]
    rcases splitLinesList rest with _ | ⟨h, t⟩
    · simp
    · by_cases hc : c = '\n' <;> simp [hc]

theorem pySplitLines_ne_nil (s : String) : pySplitLines s ≠ [] := by
  unfold pySplitLines
  simpa using splitLinesList_ne_nil s.data

theorem joinNlList_splitLinesList : ∀ l : List Char,
    joinNlList (splitLinesList l) = l
  | [] => rfl
  | c :: rest => by
    have ih := joinNlList_splitLinesList rest
    simp only [splitLinesList]
    rcases hs : splitLinesList rest with _ | ⟨h, t⟩
    · exact absurd hs (splitLinesList_ne_nil rest)
    · rw [hs] at ih
      by_cases hc : c = '\n'
      · subst hc
        simp only [if_pos rfl]
        show joinNlList ([] :: h :: t) = '\n' :: rest
        rw [show joinNlList ([] :: h :: t) = [] ++ '\n' :: joinNlList (h :: t) from rfl]
        rw [ih]
        rfl
      · simp only [if_neg hc]
        cases t with
        | nil =>
          show joinNlList [c :: h] = c :: rest
          have : joinNlList [h] = rest := ih
          simp only [joinNlList] at this ⊢
          rw [this]
        | cons t0 ts =>
          show joinNlList ((c :: h) :: t0 :: ts) = c :: rest
          rw [show joinNlList ((c :: h) :: t0 :: ts) =
            (c :: h) ++ '\n' :: joinNlList (t0 :: ts) from rfl]
          have : h ++ '\n' :: joinNlList (t0 :: ts) = rest := ih
          rw [← this]
          rfl

theorem joinNl_data : ∀ us : List String,
    (joinNl us).data = joinNlList (us.map String.data)
  | [] => rfl
  | [u] => rfl
  | u :: v :: rest => by
    show (u ++ "\n" ++ joinNl (v :: rest)).data = _
    rw [strData_append, strData_append, joinNl_data (v :: rest)]
    show u.data ++ ['\n'] ++ joinNlList ((v :: rest).map String.data) = _
    rw [show (u :: v :: rest).map String.data =
      u.data :: (v :: rest).map String.data from rfl]
    rw [show joinNlList (u.data :: (v :: rest).map String.data) =
      u.data ++ '\n' :: joinNlList ((v :: rest).map String.data) from rfl]
    simp

theorem joinNl_pySplitLines (s : String) : joinNl (pySplitLines s) = s := by
  apply strExt
  rw [joinNl_data]
  unfold pySplitLines
  rw [List.map_map]
  have hmap : (String.data ∘ fun l => (⟨l⟩ : String)) = id := by
    funext l
    rfl
  rw [hmap, List.map_id]
  exact joinNlList_splitLinesList s.data

theorem length_joinNl : ∀ us : List String, (joinNl us).length = totalLen us
  | [] => rfl
  | [u] => by simp [joinNl, totalLen]
  | u :: v :: rest => by
    have ih := length_joinNl (v :: rest)
    show (u ++ "\n" ++ joinNl (v :: rest)).length = totalLen (u :: v :: rest)
    rw [String.length_append, String.length_append, ih]
    have h1 : ("\n" : String).length = 1 := rfl
    rw [h1]
    simp only [totalLen, List.map_cons, List.sum_cons, List.length_cons]
    omega

theorem joinNl_append : ∀ (a b : List String), a ≠ [] → b ≠ [] →
    joinNl (a ++ b) = joinNl a ++ "\n" ++ joinNl b
  | [], _, ha, _ => absurd rfl ha
  | [u], b, _, hb => by
    cases b with
    | nil => exact absurd rfl hb
    | cons v rest => rfl
  | u :: v :: rest, b, _, hb => by
    have ih := joinNl_append (v :: rest) b (by simp) hb
    show joinNl (u :: ((v :: rest) ++ b)) =
      (u ++ "\n" ++ joinNl (v :: rest)) ++ "\n" ++ joinNl b
    rcases hvb : (v :: rest) ++ b with _ | ⟨w, ws⟩
    · simp at hvb
    · rw [show joinNl (u :: w :: ws) = u ++ "\n" ++ joinNl (w :: ws) from rfl,
        ← hvb, ih]
      apply strExt
      simp [strData_append, List.append_assoc]

theorem mem_data_joinNl : ∀ {us : List String} {u : String}, u ∈ us →
    ∀ {c : Char}, c ∈ u.data → c ∈ (joinNl us).data
  | [], _, hu, _, _ => absurd hu (by simp)
  | [v], u, hu, c, hc => by
    have : u = v := by simpa using hu
    subst this
    exact hc
  | v :: w :: rest, u, hu, c, hc => by
    show c ∈ (v ++ "\n" ++ joinNl (w :: rest)).data
    rw [strData_append, strData_append]
    rcases List.mem_cons.mp hu with h | h
    · subst h
      simp [hc]
    · have := mem_data_joinNl h hc
      simp [this]

theorem chunk_ne_empty {us : List String} (hne : us ≠ [])
    (h : ∀ u ∈ us, pyStrip u ≠ "") : pyStrip (joinNl us) ≠ "" := by
  rcases us with _ | ⟨u, rest⟩
  · exact absurd rfl hne
  · intro hcon
    have hall := pyStrip_eq_empty_iff.mp hcon
    apply h u (by simp)
    apply pyStrip_eq_empty_iff.mpr
    intro c hc
    exact hall c (mem_data_joinNl (by simp) hc)

theorem edgeOK_joinNl : ∀ us : List String, us ≠ [] →
    (∀ u ∈ us, edgeOK u = true) → edgeOK (joinNl us) = true
  | [], hne, _ => absurd rfl hne
  | [u], _, h => h u (by simp)
  | u :: v :: rest, _, h => by
    have ih := edgeOK_joinNl (v :: rest) (by simp) (fun x hx => h x (by simp [hx]))
    show edgeOK (u ++ "\n" ++ joinNl (v :: rest)) = true
    unfold edgeOK
    rw [strData_append, strData_append]
    exact edgeOKL_append u.data ['\n'] (joinNl (v :: rest)).data (h u (by simp)) ih

/-! ## `totalLen` lemmas -/

theorem totalLen_nil : totalLen [] = 0 := rfl

theorem totalLen_cons (u : String) (rest : List String) :
    totalLen (u :: rest) = u.length + totalLen rest +
      (if rest = [] then 0 else 1) := by
  rcases rest with _ | ⟨v, t⟩
  · simp [totalLen]
  · rw [if_neg (List.cons_ne_nil v t)]
    simp only [totalLen, List.map_cons, List.sum_cons, List.length_cons]
    omega

theorem totalLen_append_singleton (l : List String) (d : String) :
    totalLen (l ++ [d]) = totalLen l + d.length +
      (if l = [] then 0 else 1) := by
  rcases l with _ | ⟨u, t⟩
  · simp [totalLen]
  · rw [if_neg (List.cons_ne_nil u t)]
    simp only [totalLen, List.cons_append, List.map_cons, List.map_append,
      List.sum_cons, List.sum_append, List.map_nil, List.sum_nil,
      List.length_cons, List.length_append, List.length_nil]
    omega

theorem totalLen_pos {l : List String} (hne : l ≠ [])
    (h : ∀ u ∈ l, u ≠ "") : 1 ≤ totalLen l := by
  rcases l with _ | ⟨u, t⟩
  · exact absurd rfl hne
  · have hu : u.data ≠ [] := strNe_empty_iff.mp (h u (by simp))
    have h1 : 1 ≤ u.length := by
      rw [strLength]
      exact List.length_pos.mpr hu
    rw [totalLen_cons]
    omega

/-! ## `popUnits` lemmas -/

theorem popUnits_suffix (dlen : Nat) :
    ∀ l : List String, ∃ xs, xs ++ popUnits dlen l = l
  | [] => ⟨[], rfl⟩
  | u :: rest => by
    simp only [popUnits]
    split
    · obtain ⟨xs, hxs⟩ := popUnits_suffix dlen rest
      exact ⟨u :: xs, by simp [hxs]⟩
    · exact ⟨[], rfl⟩

theorem popUnits_total_le (dlen : Nat) :
    ∀ l : List String, totalLen (popUnits dlen l) ≤ 200
  | [] => by simp [popUnits, totalLen]
  | u :: rest => by
    simp only [popUnits]
    split
    · exact popUnits_total_le dlen rest
    · rename_i h
      push_neg at h
      exact h.1

theorem popUnits_fit (dlen : Nat) : ∀ l : List String,
    popUnits dlen l = [] ∨ totalLen (popUnits dlen l) + dlen + 1 ≤ 1000 ∨
      totalLen (popUnits dlen l) = 0
  | [] => Or.inl rfl
  | u :: rest => by
    simp only [popUnits]
    split
    · exact popUnits_fit dlen rest
    · rename_i h
      push_neg at h
      by_cases ho : 1000 < totalLen (u :: rest) + dlen + 1
      · have := h.2 ho
        right; right
        omega
      · right; left
        omega

/-! ## Merge-loop lemmas -/

theorem mergeTraceAux_acc : ∀ (ds current : List String) (kpend : Nat)
    (docs : List TraceEntry),
    mergeTraceAux ds current kpend docs = docs ++ mergeTraceAux ds current kpend []
  | [], current, kpend, docs => by
    simp only [mergeTraceAux]
    split
    · simp
    · simp
  | d :: ds, current, kpend, docs => by
    simp only [mergeTraceAux]
    by_cases hov : 1000 < totalLen current + d.length + (if current = [] then 0 else 1)
    · simp only [if_pos hov]
      by_cases h1 : current = []
      · simp only [if_pos h1]
        exact mergeTraceAux_acc ds _ _ docs
      · by_cases h2 : pyStrip (joinNl current) = ""
        · simp only [if_neg h1, if_pos h2]
          exact mergeTraceAux_acc ds _ _ docs
        · simp only [if_neg h1, if_neg h2]
          rw [mergeTraceAux_acc]
          simp only [List.nil_append]
          rw [mergeTraceAux_acc ds (popUnits d.length current ++ [d])
            (popUnits d.length current).length [{ units := current, kept := kpend }]]
          simp
    · simp only [if_neg hov]
      exact mergeTraceAux_acc ds (current ++ [d]) kpend docs

theorem merge_bridge : ∀ (ds current : List String) (kpend : Nat)
    (docsT : List TraceEntry),
    merge_splits_aux ds current (docsT.map chunkOf) =
      (mergeTraceAux ds current kpend docsT).map chunkOf
  | [], current, kpend, docsT => by
    simp only [merge_splits_aux, mergeTraceAux]
    by_cases h2 : pyStrip (joinNl current) = ""
    · simp [h2]
    · simp [h2, chunkOf]
  | d :: ds, current, kpend, docsT => by
    simp only [merge_splits_aux, mergeTraceAux]
    by_cases hov : 1000 < totalLen current + d.length + (if current = [] then 0 else 1)
    · simp only [if_pos hov]
      by_cases h1 : current = []
      · simp only [if_pos h1]
        exact merge_bridge ds _ _ docsT
      · by_cases h2 : pyStrip (joinNl current) = ""
        · simp only [if_neg h1, if_pos h2]
          exact merge_bridge ds _ _ docsT
        · simp only [if_neg h1, if_neg h2]
          have := merge_bridge ds (popUnits d.length current ++ [d])
            (popUnits d.length current).length (docsT ++ [⟨current, kpend⟩])
          simpa [chunkOf] using this
    · simp only [if_neg hov]
      exact merge_bridge ds _ _ docsT

theorem split_text_eq_trace (text : String) :
    split_text text = (split_text_trace text).map chunkOf := by
  unfold split_text split_text_trace
  exact merge_bridge _ [] 0 []

/-- Master invariant of the instrumented merge loop: every produced
entry has nonempty units satisfying the carried predicate with the kept
count strictly below the unit count; dropping each entry's kept prefix
recovers exactly the splits fed to the loop; consecutive entries are
related by `handover`; and the first produced entry keeps exactly the
pending prefix. -/
theorem mergeTrace_master (P : String → Prop) (hP : ∀ u, P u → pyStrip u ≠ "") :
    ∀ (ds : List String), ∀ (current : List String) (kpend : Nat),
      (∀ u ∈ ds, P u) → (∀ u ∈ current, P u) →
      (current = [] → kpend = 0) → (current ≠ [] → kpend < current.length) →
      (∀ e ∈ mergeTraceAux ds current kpend [],
          (∀ u ∈ e.units, P u) ∧ e.units ≠ [] ∧ e.kept < e.units.length) ∧
        droppedUnits (mergeTraceAux ds current kpend []) =
          current.drop kpend ++ ds ∧
        List.Chain' handover (mergeTraceAux ds current kpend []) ∧
        (∀ e, (mergeTraceAux ds current kpend []).head? = some e →
          e.kept = kpend ∧ e.units.take kpend = current.take kpend) := by
  intro ds
  induction ds with
  | nil =>
    intro current kpend h1 h2 h3 h4
    simp only [mergeTraceAux]
    by_cases hs : pyStrip (joinNl current) = ""
    · rcases current with _ | ⟨u, t⟩
      · simp only [if_pos hs, droppedUnits]
        refine ⟨by simp, by simp, by simp, by simp⟩
      · exact absurd hs
          (chunk_ne_empty (by simp) (fun x hx => hP x (h2 x hx)))
    · have hcur : current ≠ [] := by
        intro hc
        subst hc
        exact hs rfl
      simp only [if_neg hs, droppedUnits]
      refine ⟨?_, by simp, by simp [List.chain'_singleton], ?_⟩
      · intro e he
        simp only [List.nil_append, List.mem_singleton] at he
        subst he
        exact ⟨h2, hcur, h4 hcur⟩
      · intro e he
        simp only [List.nil_append, List.head?_cons, Option.some.injEq] at he
        subst he
        exact ⟨rfl, rfl⟩
  | cons d ds ih =>
    intro current kpend h1 h2 h3 h4
    have hd : P d := h1 d (by simp)
    have hds : ∀ u ∈ ds, P u := fun u hu => h1 u (by simp [hu])
    simp only [mergeTraceAux]
    by_cases hov : 1000 < totalLen current + d.length + (if current = [] then 0 else 1)
    · simp only [if_pos hov]
      obtain ⟨xs, hxs⟩ := popUnits_suffix d.length current
      have hpopP : ∀ u ∈ popUnits d.length current, P u := by
        intro u hu
        apply h2
        rw [← hxs]
        simp [hu]
      have hcurP : ∀ u ∈ popUnits d.length current ++ [d], P u := by
        intro u hu
        rcases List.mem_append.mp hu with h | h
        · exact hpopP u h
        · simp only [List.mem_singleton] at h
          subst h
          exact hd
      have hlt : (popUnits d.length current ++ [d]) ≠ [] →
          (popUnits d.length current).length < (popUnits d.length current ++ [d]).length := by
        intro _
        simp
      have hih := ih (popUnits d.length current ++ [d]) (popUnits d.length current).length
        hds hcurP (by simp) hlt
      have hdropd : (popUnits d.length current ++ [d]).drop
          (popUnits d.length current).length = [d] := List.drop_left _ _
      have htaked : (popUnits d.length current ++ [d]).take
          (popUnits d.length current).length = popUnits d.length current :=
        List.take_left _ _
      by_cases h1c : current = []
      · simp only [if_pos h1c]
        subst h1c
        have hk0 : kpend = 0 := h3 rfl
        subst hk0
        refine ⟨hih.1, ?_, hih.2.2.1, ?_⟩
        · rw [hih.2.1, hdropd]
          simp
        · intro e he
          obtain ⟨hk, _⟩ := hih.2.2.2 e he
          constructor
          · rw [hk]
            simp [popUnits]
          · simp
      · by_cases h2c : pyStrip (joinNl current) = ""
        · exact absurd h2c
            (chunk_ne_empty h1c (fun x hx => hP x (h2 x hx)))
        · simp only [if_neg h1c, if_neg h2c]
          rw [mergeTraceAux_acc]
          simp only [List.nil_append, List.singleton_append]
          refine ⟨?_, ?_, ?_, ?_⟩
          · intro e he
            rcases List.mem_cons.mp he with h | h
            · subst h
              exact ⟨h2, h1c, h4 h1c⟩
            · exact hih.1 e h
          · simp only [droppedUnits]
            rw [hih.2.1, hdropd]
            simp
          · rw [List.chain'_cons']
            refine ⟨?_, hih.2.2.1⟩
            intro y hy
            obtain ⟨hk, ht⟩ := hih.2.2.2 y (Option.mem_def.mp hy)
            constructor
            · rw [hk, ht, htaked]
              exact ⟨xs, hxs⟩
            · rw [hk, ht, htaked]
              exact popUnits_total_le d.length current
          · intro e he
            simp only [List.head?_cons, Option.some.injEq] at he
            subst he
            exact ⟨rfl, rfl⟩
    · simp only [if_neg hov]
      have hle : kpend ≤ current.length := by
        by_cases hc : current = []
        · rw [h3 hc, hc]
          simp
        · exact le_of_lt (h4 hc)
      have hih := ih (current ++ [d]) kpend hds
        (by
          intro u hu
          rcases List.mem_append.mp hu with h | h
          · exact h2 u h
          · simp only [List.mem_singleton] at h
            subst h
            exact hd)
        (by intro hc; simp at hc)
        (by
          intro _
          calc kpend ≤ current.length := hle
            _ < (current ++ [d]).length := by simp)
      refine ⟨hih.1, ?_, hih.2.2.1, ?_⟩
      · rw [hih.2.1, List.drop_append_of_le_length hle]
        simp
      · intro e he
        obtain ⟨hk, ht⟩ := hih.2.2.2 e he
        exact ⟨hk, by rw [ht, List.take_append_of_le_length hle]⟩

/-- Length bound of the merge loop: when every split is nonempty and at
most 1000 characters long, every produced chunk's joined length is at
most 1000. -/
theorem mergeTrace_lenBound :
    ∀ (ds : List String), ∀ (current : List String) (kpend : Nat),
      (∀ u ∈ ds, u ≠ "" ∧ u.length ≤ 1000) →
      (∀ u ∈ current, u ≠ "") →
      totalLen current ≤ 1000 →
      ∀ e ∈ mergeTraceAux ds current kpend [], totalLen e.units ≤ 1000 := by
  intro ds
  induction ds with
  | nil =>
    intro current kpend h1 h2 hlen
    simp only [mergeTraceAux]
    by_cases hs : pyStrip (joinNl current) = ""
    · simp [if_pos hs]
    · simp only [if_neg hs, List.nil_append]
      intro e he
      simp only [List.mem_singleton] at he
      subst he
      exact hlen
  | cons d ds ih =>
    intro current kpend h1 h2 hlen
    have hd := h1 d (by simp)
    have hds : ∀ u ∈ ds, u ≠ "" ∧ u.length ≤ 1000 := fun u hu => h1 u (by simp [hu])
    simp only [mergeTraceAux]
    by_cases hov : 1000 < totalLen current + d.length + (if current = [] then 0 else 1)
    · simp only [if_pos hov]
      obtain ⟨xs, hxs⟩ := popUnits_suffix d.length current
      have hpop : ∀ u ∈ popUnits d.length current, u ≠ "" := by
        intro u hu
        apply h2
        rw [← hxs]
        simp [hu]
      have hcur2 : ∀ u ∈ popUnits d.length current ++ [d], u ≠ "" := by
        intro u hu
        rcases List.mem_append.mp hu with h | h
        · exact hpop u h
        · simp only [List.mem_singleton] at h
          subst h
          exact hd.1
      have hdlen : d.length ≤ 1000 := hd.2
      have hlen2 : totalLen (popUnits d.length current ++ [d]) ≤ 1000 := by
        rw [totalLen_append_singleton]
        by_cases hp : popUnits d.length current = []
        · rw [hp]
          simpa [totalLen_nil] using hdlen
        · rw [if_neg hp]
          rcases popUnits_fit d.length current with hfit | hfit | hfit
          · exact absurd hfit hp
          · omega
          · have h1p : 1 ≤ totalLen (popUnits d.length current) :=
              totalLen_pos hp hpop
            omega
      have hrec := ih (popUnits d.length current ++ [d])
        (popUnits d.length current).length hds hcur2 hlen2
      by_cases h1c : current = []
      · simp only [if_pos h1c]
        exact hrec
      · by_cases h2c : pyStrip (joinNl current) = ""
        · simp only [if_neg h1c, if_pos h2c]
          exact hrec
        · simp only [if_neg h1c, if_neg h2c]
          rw [mergeTraceAux_acc]
          intro e he
          rcases List.mem_append.mp he with h | h
          · simp only [List.nil_append, List.mem_singleton] at h
            subst h
            exact hlen
          · exact hrec e h
    · simp only [if_neg hov]
      apply ih (current ++ [d]) kpend hds
      · intro u hu
        rcases List.mem_append.mp hu with h | h
        · exact h2 u h
        · simp only [List.mem_singleton] at h
          subst h
          exact hd.1
      · rw [totalLen_append_singleton]
        omega

/-! ## `get_all_text` lemmas -/

theorem get_all_text_aux_flag_true : ∀ (files : List Document) (combined : String),
    (get_all_text_aux files combined true).2 = true
  | [], _ => rfl
  | d :: rest, combined => by
    simp only [get_all_text_aux]
    by_cases h1 : pyStrip (extract_text_from_pdf_bytes d.textLayer) = ""
    · by_cases h2 : pyStrip (ocr_text_from_pdf_bytes d.ocr) = ""
      · simp only [if_pos h1, if_pos h2]
        exact get_all_text_aux_flag_true rest combined
      · simp only [if_pos h1, if_neg h2]
        exact get_all_text_aux_flag_true rest _
    · simp only [if_neg h1]
      exact get_all_text_aux_flag_true rest _

theorem get_all_text_aux_append :
    ∀ (xs ys : List Document) (combined : String) (used : Bool),
      get_all_text_aux (xs ++ ys) combined used =
        get_all_text_aux ys (get_all_text_aux xs combined used).1
          (get_all_text_aux xs combined used).2
  | [], _, _, _ => rfl
  | d :: xs, ys, combined, used => by
    simp only [List.cons_append, get_all_text_aux]
    by_cases h1 : pyStrip (extract_text_from_pdf_bytes d.textLayer) = ""
    · by_cases h2 : pyStrip (ocr_text_from_pdf_bytes d.ocr) = ""
      · simp only [if_pos h1, if_pos h2]
        exact get_all_text_aux_append xs ys combined used
      · simp only [if_pos h1, if_neg h2]
        exact get_all_text_aux_append xs ys _ true
    · simp only [if_neg h1]
      exact get_all_text_aux_append xs ys _ used

theorem get_all_text_aux_empty_all : ∀ (files : List Document),
    (∀ d ∈ files, pyStrip (extract_text_from_pdf_bytes d.textLayer) = "" ∧
        pyStrip (ocr_text_from_pdf_bytes d.ocr) = "") →
    ∀ (combined : String) (used : Bool),
      get_all_text_aux files combined used = (combined, used)
  | [], _, _, _ => rfl
  | d :: rest, h, combined, used => by
    have hd := h d (by simp)
    simp only [get_all_text_aux, if_pos hd.1, if_pos hd.2]
    exact get_all_text_aux_empty_all rest (fun x hx => h x (by simp [hx])) combined used

/-! ## Reconstruction lemmas -/

theorem concatAll_cons (s : String) (rest : List String) :
    concatAll (s :: rest) = s ++ concatAll rest := rfl

theorem reconstruct_core : ∀ (rest : List TraceEntry) (acc : List String),
    acc ≠ [] → (∀ e ∈ rest, e.units.drop e.kept ≠ []) →
    joinNl (acc ++ droppedUnits rest) =
      joinNl acc ++
        concatAll (rest.map (fun e => "\n" ++ joinNl (e.units.drop e.kept)))
  | [], acc, _, _ => by
    simp only [droppedUnits, List.append_nil, List.map_nil, concatAll]
    rw [strAppend_empty]
  | e :: rest, acc, hacc, hall => by
    have hne : e.units.drop e.kept ≠ [] := hall e (by simp)
    have ih := reconstruct_core rest (acc ++ e.units.drop e.kept)
      (fun h => hacc (List.append_eq_nil.mp h).1)
      (fun x hx => hall x (by simp [hx]))
    simp only [droppedUnits, List.map_cons, concatAll_cons]
    rw [show acc ++ (e.units.drop e.kept ++ droppedUnits rest) =
      (acc ++ e.units.drop e.kept) ++ droppedUnits rest by simp, ih,
      joinNl_append acc (e.units.drop e.kept) hacc hne]
    apply strExt
    simp [strData_append, List.append_assoc]

theorem dropOverlap_eq {e : TraceEntry} (hu : e.units ≠ [])
    (hedge : ∀ u ∈ e.units, edgeOK u = true)
    (hk1 : 1 ≤ e.kept) (hklt : e.kept < e.units.length) :
    dropOverlap e = "\n" ++ joinNl (e.units.drop e.kept) := by
  have htake_ne : e.units.take e.kept ≠ [] := by
    intro h
    rcases List.take_eq_nil_iff.mp h with h | h
    · omega
    · exact hu h
  have hdrop_ne : e.units.drop e.kept ≠ [] := by
    intro h
    have := List.drop_eq_nil_iff.mp h
    omega
  have hchunk : chunkOf e = joinNl e.units :=
    pyStrip_eq_self_of_edgeOK (edgeOK_joinNl _ hu hedge)
  have hjoin : joinNl e.units =
      overlapOf e ++ "\n" ++ joinNl (e.units.drop e.kept) := by
    conv_lhs => rw [← List.take_append_drop e.kept e.units]
    exact joinNl_append _ _ htake_ne hdrop_ne
  unfold dropOverlap
  rw [hchunk, hjoin]
  apply strExt
  simp only [strDrop, strData_append, List.append_assoc]
  rw [show (overlapOf e).length = (overlapOf e).data.length from rfl,
    List.drop_left]

/-! ## Concrete documents used by counterexamples and witnesses -/

/-- A PDF whose text layer and OCR both yield nothing. -/
def emptyDoc : Document :=
  ⟨"empty.pdf", TextLayer.pages [], OcrLayer.images []⟩

/-- A PDF with a normal text layer. -/
def textDoc : Document :=
  ⟨"doc.pdf", TextLayer.pages [PageRead.ok (some "Hello")], OcrLayer.images []⟩

/-- A scanned PDF: empty text layer, OCR succeeds. -/
def scanDoc : Document :=
  ⟨"scan.pdf", TextLayer.pages [PageRead.ok none],
    OcrLayer.images [ImageRead.ok "scanned text"]⟩

/-- A PDF on which both libraries raise. -/
def badDoc : Document := ⟨"bad.pdf", TextLayer.malformed, OcrLayer.renderFail⟩

/-- A corpus line of 1001 identical characters. -/
def cexA : String := ⟨List.replicate 1001 'a'⟩

/-- A corpus line of 900 identical characters. -/
def cexB : String := ⟨List.replicate 900 'b'⟩

/-- A corpus whose first line exceeds the configured chunk size. -/
def cexText : String := cexA ++ "\n" ++ cexB

/-! ## Claims -/

/-- C1.  For every document in a batch whose direct text-layer
extraction yields non-empty (non-whitespace) text, `get_all_text`
extends the corpus accumulator by exactly that direct-extraction output
(followed by the between-document separator), leaves the `used_ocr`
flag untouched, and the OCR fallback branch is not entered for that
document. -/
theorem C1_direct_text_kept (d : Document) (rest : List Document)
    (combined : String) (used : Bool)
    (h : pyStrip (extract_text_from_pdf_bytes d.textLayer) ≠ "") :
    get_all_text_aux (d :: rest) combined used =
      get_all_text_aux rest
        (combined ++ extract_text_from_pdf_bytes d.textLayer ++ "\n") used ∧
    ocrInvoked d = false := by
  constructor
  · simp only [get_all_text_aux, if_neg h]
  · simp only [ocrInvoked]
    exact beq_eq_false_iff_ne.mpr h

theorem C1_direct_text_kept_witness :
    get_all_text_aux [textDoc] "" false =
      get_all_text_aux []
        ("" ++ extract_text_from_pdf_bytes textDoc.textLayer ++ "\n") false ∧
    ocrInvoked textDoc = false :=
  C1_direct_text_kept textDoc [] "" false (by decide)

/-- C2 counterexample.  For `emptyDoc` the direct extraction is empty,
so the OCR fallback branch runs, but since the OCR output is also empty
the batch's OCR-used flag stays `false` — contradicting the claim that
the flag is set to `true` whenever the fallback runs. -/
theorem C2_flag_counterexample :
    pyStrip (extract_text_from_pdf_bytes emptyDoc.textLayer) = "" ∧
    ocrInvoked emptyDoc = true ∧
    (get_all_text [emptyDoc]).2 = false := by decide

/-- C2 (amended).  For every document whose direct extraction is empty
or whitespace-only the OCR fallback branch runs; if the OCR output is
non-whitespace it is appended to the corpus and the batch's OCR-used
flag becomes `true` for any batch containing the document; if the OCR
output is also empty the document contributes nothing and the flag is
left unchanged. -/
theorem C2_ocr_fallback_amended (d : Document)
    (h : pyStrip (extract_text_from_pdf_bytes d.textLayer) = "") :
    ocrInvoked d = true ∧
    (pyStrip (ocr_text_from_pdf_bytes d.ocr) ≠ "" →
      (∀ (rest : List Document) (combined : String) (used : Bool),
        get_all_text_aux (d :: rest) combined used =
          get_all_text_aux rest
            (combined ++ ocr_text_from_pdf_bytes d.ocr ++ "\n") true) ∧
      (∀ pre post : List Document, (get_all_text (pre ++ d :: post)).2 = true)) ∧
    (pyStrip (ocr_text_from_pdf_bytes d.ocr) = "" →
      ∀ (rest : List Document) (combined : String) (used : Bool),
        get_all_text_aux (d :: rest) combined used =
          get_all_text_aux rest combined used) := by
  refine ⟨?_, ?_, ?_⟩
  · simp only [ocrInvoked]
    exact beq_iff_eq.mpr h
  · intro h2
    constructor
    · intro rest combined used
      simp only [get_all_text_aux, if_pos h, if_neg h2]
    · intro pre post
      simp only [get_all_text]
      rw [get_all_text_aux_append]
      simp only [get_all_text_aux, if_pos h, if_neg h2]
      exact get_all_text_aux_flag_true post _
  · intro h2 rest combined used
    simp only [get_all_text_aux, if_pos h, if_pos h2]

theorem C2_ocr_fallback_amended_witness :
    ocrInvoked scanDoc = true ∧
    get_all_text_aux [scanDoc] "" false =
      get_all_text_aux []
        ("" ++ ocr_text_from_pdf_bytes scanDoc.ocr ++ "\n") true ∧
    (get_all_text [scanDoc]).2 = true := by
  have h := C2_ocr_fallback_amended scanDoc (by decide)
  refine ⟨h.1, (h.2.1 (by decide)).1 [] "" false, ?_⟩
  have := (h.2.1 (by decide)).2 [] []
  simpa using this

/-- C3.  For a batch in which every document yields empty text through
both the direct and the OCR path, the `Process` action stops at the
corpus check: it emits exactly the fatal "no text extracted" error and
returns, `split_text` is never reached, and no conversation is
established (no retry of any kind appears in the emitted events). -/
theorem C3_empty_batch_halts (files : List Document) (embedOk chainOk : Bool)
    (h : ∀ d ∈ files, pyStrip (extract_text_from_pdf_bytes d.textLayer) = "" ∧
        pyStrip (ocr_text_from_pdf_bytes d.ocr) = "") :
    process_action files embedOk chainOk = ([Ev.errorMsg noTextErrMsg], false) ∧
    Ev.splitCalled ∉ (process_action files embedOk chainOk).1 := by
  have hempty : get_all_text files = ("", false) := by
    simp only [get_all_text, get_all_text_aux_empty_all files h "" false]
    rfl
  have hmain : process_action files embedOk chainOk =
      ([Ev.errorMsg noTextErrMsg], false) := by
    simp only [process_action, hempty]
    rfl
  refine ⟨hmain, ?_⟩
  rw [hmain]
  simp

theorem C3_empty_batch_halts_witness :
    process_action [emptyDoc] true true = ([Ev.errorMsg noTextErrMsg], false) ∧
    Ev.splitCalled ∉ (process_action [emptyDoc] true true).1 :=
  C3_empty_batch_halts [emptyDoc] true true (by decide)

/-- C4.  A raised error inside the `try` body of direct extraction is
caught and the function returns the empty string (which triggers the
OCR fallback branch of `get_all_text`); a raised error inside the OCR
`try` body is likewise caught and yields the empty string.  Both
embedded functions are total, reflecting that neither Python function
lets an exception propagate to its caller. -/
theorem C4_errors_contained (d : Document) :
    (raised (extract_body d.textLayer) = true →
      extract_text_from_pdf_bytes d.textLayer = "" ∧ ocrInvoked d = true) ∧
    (raised (ocr_body d.ocr) = true → ocr_text_from_pdf_bytes d.ocr = "") := by
  constructor
  · intro h
    have he : extract_text_from_pdf_bytes d.textLayer = "" := by
      cases hb : extract_body d.textLayer with
      | ok t => rw [hb] at h; simp [raised] at h
      | error e => simp [extract_text_from_pdf_bytes, hb]
    refine ⟨he, ?_⟩
    simp only [ocrInvoked, he]
    decide
  · intro h
    cases hb : ocr_body d.ocr with
    | ok t => rw [hb] at h; simp [raised] at h
    | error e => simp [ocr_text_from_pdf_bytes, hb]

theorem C4_errors_contained_witness :
    (extract_text_from_pdf_bytes badDoc.textLayer = "" ∧
      ocrInvoked badDoc = true) ∧
    ocr_text_from_pdf_bytes badDoc.ocr = "" := by
  have h := C4_errors_contained badDoc
  exact ⟨h.1 (by decide), h.2 (by decide)⟩

/-- C7.  When the credential resolves to a falsy value from both the
environment and the secret store, `main` emits exactly the key error
and the remediation notice and returns: no document is read, no
embedding request is made, and the model is never called. -/
theorem C7_missing_key_halts (env : KeyEnv) (clickedProcess : Bool)
    (uploaded : List Document) (embedOk chainOk : Bool)
    (h : isFalsy (pyOr env.envKey env.secretsKey) = true) :
    main_run env clickedProcess uploaded embedOk chainOk =
      [Ev.errorMsg apiKeyErrMsg, Ev.infoMsg] ∧
    Ev.readDocs ∉ main_run env clickedProcess uploaded embedOk chainOk ∧
    Ev.networkEmbed ∉ main_run env clickedProcess uploaded embedOk chainOk ∧
    Ev.modelCall ∉ main_run env clickedProcess uploaded embedOk chainOk := by
  have hm : main_run env clickedProcess uploaded embedOk chainOk =
      [Ev.errorMsg apiKeyErrMsg, Ev.infoMsg] := by
    simp only [main_run, if_pos h]
  refine ⟨hm, ?_, ?_, ?_⟩ <;> rw [hm] <;> simp

theorem C7_missing_key_halts_witness :
    main_run ⟨none, some ""⟩ true [textDoc] true true =
      [Ev.errorMsg apiKeyErrMsg, Ev.infoMsg] ∧
    Ev.readDocs ∉ main_run ⟨none, some ""⟩ true [textDoc] true true ∧
    Ev.networkEmbed ∉ main_run ⟨none, some ""⟩ true [textDoc] true true ∧
    Ev.modelCall ∉ main_run ⟨none, some ""⟩ true [textDoc] true true :=
  C7_missing_key_halts ⟨none, some ""⟩ true [textDoc] true true (by decide)

/-! ## Conversation lemmas for C8 -/

theorem ask_question_some (llm : List (String × String) → String → String)
    (s : AppState) (c : Chain) (h : s.conversation = some c) (q : String) :
    (ask_question llm s q).1 =
      ⟨some ⟨c.history ++ [(q, llm c.history q)]⟩,
        c.history ++ [(q, llm c.history q)]⟩ := by
  simp [ask_question, h, chain_call]

theorem askMany_cons (llm : List (String × String) → String → String)
    (s : AppState) (q : String) (qs : List String) :
    askMany llm s (q :: qs) = askMany llm (ask_question llm s q).1 qs := rfl

theorem askMany_history (llm : List (String × String) → String → String) :
    ∀ (qs : List String) (s : AppState) (c : Chain),
      s.conversation = some c →
      ∃ c2 : Chain, (askMany llm s qs).conversation = some c2 ∧
        c2.history.length = c.history.length + qs.length ∧
        c2.history.map Prod.fst = c.history.map Prod.fst ++ qs
  | [], s, c, h => ⟨c, by simpa [askMany] using h, by simp, by simp⟩
  | q :: qs, s, c, h => by
    have hstep := ask_question_some llm s c h q
    have hconv : (ask_question llm s q).1.conversation =
        some ⟨c.history ++ [(q, llm c.history q)]⟩ := by rw [hstep]
    obtain ⟨c2, h1, h2, h3⟩ := askMany_history llm qs (ask_question llm s q).1
      ⟨c.history ++ [(q, llm c.history q)]⟩ hconv
    refine ⟨c2, by rwa [askMany_cons], ?_, ?_⟩
    · simp only [List.length_append, List.length_singleton] at h2
      simp only [List.length_cons]
      omega
    · rw [h3]
      simp

/-- C8.  With an established conversation, one invocation of
`ask_question` appends exactly the asked (question, answer) pair to the
chain's history; folding a list of questions from a fresh history
yields a history of exactly that many pairs whose questions appear in
call order. -/
theorem C8_history_growth (llm : List (String × String) → String → String)
    (s : AppState) (c : Chain) (h : s.conversation = some c)
    (q : String) (qs : List String) :
    (ask_question llm s q).1.conversation =
      some ⟨c.history ++ [(q, llm c.history q)]⟩ ∧
    (∀ c2 : Chain, (ask_question llm s q).1.conversation = some c2 →
      c2.history.length = c.history.length + 1) ∧
    ∃ c2 : Chain, (askMany llm s qs).conversation = some c2 ∧
      c2.history.length = c.history.length + qs.length ∧
      c2.history.map Prod.fst = c.history.map Prod.fst ++ qs := by
  have hstep := ask_question_some llm s c h q
  refine ⟨by rw [hstep], ?_, askMany_history llm qs s c h⟩
  intro c2 hc2
  rw [hstep] at hc2
  simp only [Option.some.injEq] at hc2
  rw [← hc2]
  simp

theorem C8_history_growth_witness :
    (ask_question (fun _ _ => "jawaban") ⟨some ⟨[]⟩, []⟩ "Q1").1.conversation =
      some ⟨[] ++ [("Q1", "jawaban")]⟩ ∧
    (∀ c2 : Chain,
      (ask_question (fun _ _ => "jawaban") ⟨some ⟨[]⟩, []⟩ "Q1").1.conversation =
        some c2 → c2.history.length = List.length ([] : List (String × String)) + 1) ∧
    ∃ c2 : Chain,
      (askMany (fun _ _ => "jawaban") ⟨some ⟨[]⟩, []⟩ ["Q1", "Q2"]).conversation =
        some c2 ∧
      c2.history.length = List.length ([] : List (String × String)) + 2 ∧
      c2.history.map Prod.fst =
        ([] : List (String × String)).map Prod.fst ++ ["Q1", "Q2"] :=
  C8_history_growth (fun _ _ => "jawaban") ⟨some ⟨[]⟩, []⟩ ⟨[]⟩ rfl "Q1" ["Q1", "Q2"]

/-- C9.  A page whose `extract_text()` yields no text (`None`) changes
nothing in the output of direct extraction: the document's result
equals that of the same document without the unreadable page, and when
no page raises, the result is exactly the concatenated text of the
readable pages. -/
theorem C9_unreadable_page (ps1 ps2 : List PageRead) :
    extract_text_from_pdf_bytes (TextLayer.pages (ps1 ++ PageRead.ok none :: ps2)) =
      extract_text_from_pdf_bytes (TextLayer.pages (ps1 ++ ps2)) ∧
    ((∀ p ∈ ps1 ++ ps2, p ≠ PageRead.err) →
      extract_text_from_pdf_bytes (TextLayer.pages (ps1 ++ ps2)) =
        pagesText (ps1 ++ ps2)) := by
  constructor
  · have hbody : ∀ l1 : List PageRead,
        extract_pages_body (l1 ++ PageRead.ok none :: ps2) =
          extract_pages_body (l1 ++ ps2) := by
      intro l1
      induction l1 with
      | nil =>
        simp only [List.nil_append, extract_pages_body]
        cases hb : extract_pages_body ps2 with
        | ok s => simp [Option.getD, strEmpty_append]
        | error e => rfl
      | cons p ps ihp =>
        cases p with
        | ok t =>
          have ihp2 : extract_pages_body (ps.append (PageRead.ok none :: ps2)) =
              extract_pages_body (ps.append ps2) := ihp
          simp only [List.cons_append, extract_pages_body, ihp2]
        | err => simp [extract_pages_body]
    simp only [extract_text_from_pdf_bytes, extract_body, hbody ps1]
  · intro h
    have hbody : ∀ l : List PageRead, (∀ p ∈ l, p ≠ PageRead.err) →
        extract_pages_body l = Except.ok (pagesText l) := by
      intro l
      induction l with
      | nil => intro _; rfl
      | cons p ps ihp =>
        intro hl
        cases p with
        | ok t =>
          simp only [extract_pages_body, ihp (fun x hx => hl x (by simp [hx]))]
          rfl
        | err => exact absurd rfl (hl PageRead.err (by simp))
    simp only [extract_text_from_pdf_bytes, extract_body, hbody (ps1 ++ ps2) h]

theorem C9_unreadable_page_witness :
    extract_text_from_pdf_bytes
        (TextLayer.pages
          ([PageRead.ok (some "Hello ")] ++ PageRead.ok none :: [PageRead.ok (some "World")])) =
      extract_text_from_pdf_bytes
        (TextLayer.pages ([PageRead.ok (some "Hello ")] ++ [PageRead.ok (some "World")])) ∧
    extract_text_from_pdf_bytes
        (TextLayer.pages ([PageRead.ok (some "Hello ")] ++ [PageRead.ok (some "World")])) =
      pagesText ([PageRead.ok (some "Hello ")] ++ [PageRead.ok (some "World")]) := by
  have h := C9_unreadable_page [PageRead.ok (some "Hello ")] [PageRead.ok (some "World")]
  exact ⟨h.1, h.2 (by decide)⟩

/-- C10.  A question asked while no conversation is established makes
`ask_question` return immediately with only the warning: the state is
unchanged (in particular the chat history), and the model is not
contacted. -/
theorem C10_question_guard (llm : List (String × String) → String → String)
    (s : AppState) (q : String) (h : s.conversation = none) :
    ask_question llm s q = (s, [Ev.warnMsg askWarnMsg]) ∧
    Ev.modelCall ∉ (ask_question llm s q).2 ∧
    (ask_question llm s q).1.chat_history = s.chat_history ∧
    (ask_question llm s q).1 = s := by
  have he : ask_question llm s q = (s, [Ev.warnMsg askWarnMsg]) := by
    simp [ask_question, h]
  refine ⟨he, ?_, ?_, ?_⟩ <;> simp [he]

theorem C10_question_guard_witness :
    ask_question (fun _ _ => "jawaban") ⟨none, []⟩ "Q1" =
      (⟨none, []⟩, [Ev.warnMsg askWarnMsg]) ∧
    Ev.modelCall ∉ (ask_question (fun _ _ => "jawaban") ⟨none, []⟩ "Q1").2 ∧
    (ask_question (fun _ _ => "jawaban") ⟨none, []⟩ "Q1").1.chat_history =
      ([] : List (String × String)) ∧
    (ask_question (fun _ _ => "jawaban") ⟨none, []⟩ "Q1").1 = ⟨none, []⟩ :=
  C10_question_guard (fun _ _ => "jawaban") ⟨none, []⟩ "Q1" rfl

/-! ## Symbolic evaluation of the splitter on `cexText` -/

theorem splitLinesList_no_nl : ∀ l : List Char, (∀ c ∈ l, c ≠ '\n') →
    splitLinesList l = [l]
  | [], _ => rfl
  | c :: rest, h => by
    simp only [splitLinesList,
      splitLinesList_no_nl rest (fun x hx => h x (by simp [hx]))]
    rw [if_neg (h c (by simp))]

theorem splitLinesList_prefix_nl :
    ∀ (l1 l2 : List Char), (∀ c ∈ l1, c ≠ '\n') →
      splitLinesList (l1 ++ '\n' :: l2) = l1 :: splitLinesList l2
  | [], l2, _ => by
    simp only [List.nil_append, splitLinesList]
    rcases hs : splitLinesList l2 with _ | ⟨h, t⟩
    · exact absurd hs (splitLinesList_ne_nil l2)
    · simp
  | c :: rest, l2, h => by
    have ih := splitLinesList_prefix_nl rest l2 (fun x hx => h x (by simp [hx]))
    have hc : c ≠ '\n' := h c (by simp)
    simp only [List.cons_append, splitLinesList]
    have ih2 : splitLinesList (rest.append ('\n' :: l2)) =
        rest :: splitLinesList l2 := ih
    rw [ih2]
    simp [hc]

theorem totalLen_singleton (u : String) : totalLen [u] = u.length := by
  simp [totalLen]

theorem cexA_length : cexA.length = 1001 := by
  rw [strLength]
  simp [cexA]

theorem cexB_length : cexB.length = 900 := by
  rw [strLength]
  simp [cexB]

theorem cexA_ne_empty : cexA ≠ "" := by
  apply strNe_empty_iff.mpr
  show List.replicate 1001 'a' ≠ []
  rw [show (1001 : Nat) = 1000 + 1 from rfl, List.replicate_succ]
  exact List.cons_ne_nil _ _

theorem cexB_ne_empty : cexB ≠ "" := by
  apply strNe_empty_iff.mpr
  show List.replicate 900 'b' ≠ []
  rw [show (900 : Nat) = 899 + 1 from rfl, List.replicate_succ]
  exact List.cons_ne_nil _ _

theorem getLastD_replicate : ∀ (n : Nat) (c : Char),
    (List.replicate n c).getLastD c = c
  | 0, _ => rfl
  | n + 1, c => by
    rw [List.replicate_succ, List.getLastD_cons]
    exact getLastD_replicate n c

theorem edgeOK_cexA : edgeOK cexA = true := by
  show edgeOKL (List.replicate 1001 'a') = true
  rw [show (1001 : Nat) = 1000 + 1 from rfl, List.replicate_succ]
  simp only [edgeOKL]
  rw [getLastD_replicate]
  decide

theorem edgeOK_cexB : edgeOK cexB = true := by
  show edgeOKL (List.replicate 900 'b') = true
  rw [show (900 : Nat) = 899 + 1 from rfl, List.replicate_succ]
  simp only [edgeOKL]
  rw [getLastD_replicate]
  decide

theorem strip_cexA : pyStrip cexA = cexA := pyStrip_eq_self_of_edgeOK edgeOK_cexA

theorem strip_cexB : pyStrip cexB = cexB := pyStrip_eq_self_of_edgeOK edgeOK_cexB

theorem pySplitLines_cex : pySplitLines cexText = [cexA, cexB] := by
  unfold pySplitLines
  have hdata : cexText.data =
      List.replicate 1001 'a' ++ '\n' :: List.replicate 900 'b' := by
    show (cexA ++ "\n" ++ cexB).data = _
    rw [strData_append, strData_append]
    show List.replicate 1001 'a' ++ ['\n'] ++ List.replicate 900 'b' = _
    simp
  rw [hdata,
    splitLinesList_prefix_nl _ _ (fun c hc => by
      rw [List.eq_of_mem_replicate hc]
      decide),
    splitLinesList_no_nl _ (fun c hc => by
      rw [List.eq_of_mem_replicate hc]
      decide)]
  rfl

theorem cex_filter :
    ([cexA, cexB].filter (fun u => u ≠ "")) = [cexA, cexB] := by
  apply List.filter_eq_self.mpr
  intro a ha
  rcases List.mem_cons.mp ha with h | h
  · subst h
    exact decide_eq_true cexA_ne_empty
  · simp only [List.mem_singleton] at h
    subst h
    exact decide_eq_true cexB_ne_empty

theorem split_text_cex : split_text cexText = [cexA, cexB] := by
  unfold split_text
  rw [pySplitLines_cex, cex_filter]
  have hpop : popUnits cexB.length [cexA] = [] := by
    simp only [popUnits, totalLen_singleton, cexA_length]
    norm_num
  simp only [merge_splits_aux, popUnits, totalLen_nil, totalLen_singleton,
    cexA_length, cexB_length]
  norm_num
  simp only [joinNl, strip_cexA, strip_cexB]
  rw [if_neg cexA_ne_empty]
  simp only [merge_splits_aux, hpop, List.nil_append, totalLen_singleton,
    cexB_length, joinNl, strip_cexB]
  rw [if_neg cexB_ne_empty]
  rw [if_pos (show (1000 : Nat) < cexA.length + 900 + 1 by
    rw [cexA_length]
    norm_num)]
  rfl

theorem cex_overlap_ne :
    strDrop cexA (cexA.length - 200) ≠ (⟨cexB.data.take 200⟩ : String) := by
  intro h
  have hd := congrArg String.data h
  simp only [strDrop, cexA_length] at hd
  rw [show cexA.data = List.replicate 1001 'a' from rfl,
    show cexB.data = List.replicate 900 'b' from rfl,
    List.drop_replicate, List.take_replicate] at hd
  norm_num at hd
  exact absurd hd (by decide)

/-- C5 counterexample.  On the corpus `cexText` (a 1001-character line
followed by a 900-character line) the splitter produces the two lines
as chunks: the first chunk is 1001 characters long, exceeding the
configured maximum of 1000, and the consecutive chunks share no
overlap at all (the 200-character suffix of the first differs from the
200-character prefix of the second), so neither half of the claim
holds. -/
theorem C5_counterexample :
    split_text cexText = [cexA, cexB] ∧
    ¬(∀ c ∈ split_text cexText, c.length ≤ 1000) ∧
    strDrop cexA (cexA.length - 200) ≠ (⟨cexB.data.take 200⟩ : String) := by
  refine ⟨split_text_cex, ?_, cex_overlap_ne⟩
  intro hall
  have h := hall cexA (by rw [split_text_cex]; simp)
  rw [cexA_length] at h
  omega

/-- C5 (amended).  When every separator-delimited line of the corpus is
at most 1000 characters long (and is not whitespace-only), every chunk
produced by `split_text` is at most 1000 characters long; the chunks
are exactly the stripped joins of the instrumented trace, and
consecutive trace entries hand over a separator-aligned run of splits
that is a suffix of the earlier chunk's splits with joined length at
most the configured overlap of 200 characters (possibly zero), rather
than exactly 200. -/
theorem C5_chunk_bounds_amended (text : String)
    (hlen : ∀ u ∈ (pySplitLines text).filter (fun u => u ≠ ""), u.length ≤ 1000)
    (hws : ∀ u ∈ (pySplitLines text).filter (fun u => u ≠ ""), pyStrip u ≠ "") :
    (∀ c ∈ split_text text, c.length ≤ 1000) ∧
    split_text text = (split_text_trace text).map chunkOf ∧
    List.Chain' handover (split_text_trace text) ∧
    List.Chain' (fun _ e2 => (overlapOf e2).length ≤ 200) (split_text_trace text) := by
  have hbridge := split_text_eq_trace text
  have htr : split_text_trace text =
      mergeTraceAux ((pySplitLines text).filter (fun u => u ≠ "")) [] 0 [] := rfl
  have hmaster := mergeTrace_master (fun u => pyStrip u ≠ "") (fun _ h => h)
    ((pySplitLines text).filter (fun u => u ≠ "")) [] 0 hws (by simp)
    (fun _ => rfl) (fun hc => absurd rfl hc)
  rw [← htr] at hmaster
  have hlenb := mergeTrace_lenBound ((pySplitLines text).filter (fun u => u ≠ "")) [] 0
    (fun u hu => ⟨of_decide_eq_true (List.mem_filter.mp hu).2, hlen u hu⟩)
    (by simp) (by rw [totalLen_nil]; omega)
  rw [← htr] at hlenb
  refine ⟨?_, hbridge, hmaster.2.2.1, ?_⟩
  · intro c hc
    rw [hbridge] at hc
    obtain ⟨e, he, hce⟩ := List.mem_map.mp hc
    subst hce
    calc (chunkOf e).length ≤ (joinNl e.units).length := length_pyStrip_le _
      _ = totalLen e.units := length_joinNl _
      _ ≤ 1000 := hlenb e he
  · refine hmaster.2.2.1.imp ?_
    intro a b hab
    show (joinNl (b.units.take b.kept)).length ≤ 200
    rw [length_joinNl]
    exact hab.2

theorem C5_chunk_bounds_amended_witness :
    (∀ c ∈ split_text "ab\ncd", c.length ≤ 1000) ∧
    split_text "ab\ncd" = (split_text_trace "ab\ncd").map chunkOf ∧
    List.Chain' handover (split_text_trace "ab\ncd") ∧
    List.Chain' (fun _ e2 => (overlapOf e2).length ≤ 200)
      (split_text_trace "ab\ncd") :=
  C5_chunk_bounds_amended "ab\ncd" (by decide) (by decide)

/-- C6 counterexample.  On the corpus `" a"` the only chunk is `"a"`
(the splitter strips whitespace), so concatenating all chunks with the
(empty set of) overlaps removed yields `"a"`, not the original corpus
`" a"`. -/
theorem C6_counterexample :
    split_text " a" = ["a"] ∧
    reconstructString (split_text_trace " a") = "a" ∧
    reconstructString (split_text_trace " a") ≠ " a" := by decide

/-- C6 (amended).  For a corpus with no empty lines, whose lines
neither start nor end in whitespace, and on which every chunk after the
first actually inherits at least one split from its predecessor (a
nonempty overlap), concatenating all chunks with each inherited overlap
region removed reconstructs the corpus exactly. -/
theorem C6_roundtrip_amended (text : String)
    (h0 : ∀ u ∈ pySplitLines text, u ≠ "")
    (hedge : ∀ u ∈ pySplitLines text, edgeOK u = true)
    (hkept : ∀ e ∈ (split_text_trace text).drop 1, 1 ≤ e.kept) :
    reconstructString (split_text_trace text) = text ∧
    split_text text = (split_text_trace text).map chunkOf := by
  have hbridge := split_text_eq_trace text
  have hfilter : (pySplitLines text).filter (fun u => u ≠ "") = pySplitLines text :=
    List.filter_eq_self.mpr (fun a ha => decide_eq_true (h0 a ha))
  have htr : split_text_trace text = mergeTraceAux (pySplitLines text) [] 0 [] := by
    unfold split_text_trace
    rw [hfilter]
  have hmaster := mergeTrace_master (fun u => edgeOK u = true)
    (fun u hu => pyStrip_ne_empty_of_edgeOK hu) (pySplitLines text) [] 0
    hedge (by simp) (fun _ => rfl) (fun hc => absurd rfl hc)
  rw [← htr] at hmaster
  obtain ⟨hOK, hdropU, _, hhead⟩ := hmaster
  have hdropU2 : droppedUnits (split_text_trace text) = pySplitLines text := by
    rw [hdropU]
    simp
  refine ⟨?_, hbridge⟩
  rcases htrace : split_text_trace text with _ | ⟨e0, rest⟩
  · rw [htrace] at hdropU2
    exact absurd hdropU2.symm (pySplitLines_ne_nil text)
  · rw [htrace] at hdropU2 hOK hhead hkept
    have he0 := hhead e0 rfl
    have he0OK := hOK e0 (by simp)
    have hdropne : ∀ e ∈ rest, e.units.drop e.kept ≠ [] := by
      intro e he hnil
      have hle := List.drop_eq_nil_iff.mp hnil
      have hlt := (hOK e (by simp [he])).2.2
      omega
    have hmapeq : rest.map dropOverlap =
        rest.map (fun e => "\n" ++ joinNl (e.units.drop e.kept)) := by
      apply List.map_congr_left
      intro e he
      exact dropOverlap_eq (hOK e (by simp [he])).2.1 (hOK e (by simp [he])).1
        (hkept e (by simpa using he)) (hOK e (by simp [he])).2.2
    have hchunk0 : chunkOf e0 = joinNl e0.units :=
      pyStrip_eq_self_of_edgeOK (edgeOK_joinNl _ he0OK.2.1 he0OK.1)
    show reconstructString (e0 :: rest) = text
    simp only [reconstructString]
    rw [hmapeq, hchunk0, ← reconstruct_core rest e0.units he0OK.2.1 hdropne]
    have hflat : e0.units ++ droppedUnits rest = droppedUnits (e0 :: rest) := by
      simp only [droppedUnits]
      rw [he0.1]
      simp
    rw [hflat, hdropU2, joinNl_pySplitLines]

theorem C6_roundtrip_amended_witness :
    reconstructString (split_text_trace "ab\ncd") = "ab\ncd" ∧
    split_text "ab\ncd" = (split_text_trace "ab\ncd").map chunkOf :=
  C6_roundtrip_amended "ab\ncd" (by decide) (by decide) (by decide)

end LLMChat
